import Mathlib

/-!
# Verification of the Eelbrain permutation-test core (`eelbrain/_stats/testnd.py`)

This file gives a shallow embedding of the cluster-labeling, TFCE and
permutation-distribution machinery of `testnd.py` and proves the spec claims
about it.

The embedding instantiates the general n-dimensional NumPy code at its 1-D,
all-grid-adjacent instance (`connectivity is None`, `all_adjacent`,
`parc=None`, no time-window cropping): statistic maps are `List ℚ`, cluster
maps are `List ℕ` (0 = background), and `scipy.ndimage.label` with the
face-adjacency structuring element degenerates to labeling maximal contiguous
runs of `true` with 1, 2, …  Machine floats are modelled as exact rationals
(reals where the code takes real powers).
-/

namespace Eelbrain

/-- `scipy.ndimage.label` for a 1-D boolean mask with face adjacency,
auxiliary worker: `n` is the number of runs seen so far, `prev` whether the
previous element was part of a run.  Labels maximal contiguous runs of `true`
with consecutive integers starting at 1; background elements get 0. -/
def labelRunsAux : List Bool → ℕ → Bool → List ℕ
  | [], _, _ => []
  | b :: rest, n, prev =>
    if b then (if prev then n else n + 1) :: labelRunsAux rest (if prev then n else n + 1) true
    else 0 :: labelRunsAux rest n false

/-- Number of runs found by `labelRunsAux` (the `n` returned by
`ndimage.label`), auxiliary worker. -/
def nRunsAux : List Bool → ℕ → Bool → ℕ
  | [], n, _ => n
  | b :: rest, n, prev =>
    if b then nRunsAux rest (if prev then n else n + 1) true
    else nRunsAux rest n false

/-- Cluster-id map produced by `ndimage.label` on a 1-D mask. -/
def labelRuns (m : List Bool) : List ℕ := labelRunsAux m 0 false

/-- Number of clusters found by `ndimage.label` on a 1-D mask. -/
def nRuns (m : List Bool) : ℕ := nRunsAux m 0 false

theorem labelRunsAux_length (m : List Bool) : ∀ n prev, (labelRunsAux m n prev).length = m.length := by
  induction m with
  | nil => intro n prev; rfl
  | cons b rest ih =>
    intro n prev
    simp only [labelRunsAux]
    split <;> simp [ih]

theorem labelRuns_length (m : List Bool) : (labelRuns m).length = m.length :=
  labelRunsAux_length m 0 false

theorem nRunsAux_le (m : List Bool) : ∀ n prev, n ≤ nRunsAux m n prev := by
  induction m with
  | nil => intro n prev; simp [nRunsAux]
  | cons b rest ih =>
    intro n prev
    simp only [nRunsAux]
    split
    · split
      · exact ih n true
      · exact le_trans (Nat.le_succ n) (ih (n + 1) true)
    · exact ih n false

/-- Every label produced by the run labeler is 0 (background) or at most the
total number of runs. -/
theorem labelRunsAux_le (m : List Bool) :
    ∀ n prev l, l ∈ labelRunsAux m n prev → l = 0 ∨ l ≤ nRunsAux m n prev := by
  induction m with
  | nil => intro n prev l hl; simp [labelRunsAux] at hl
  | cons b rest ih =>
    intro n prev l hl
    cases b with
    | true =>
      cases prev with
      | true =>
        simp only [labelRunsAux, if_true, List.mem_cons] at hl
        simp only [nRunsAux, if_true]
        rcases hl with h | h
        · exact Or.inr (h ▸ nRunsAux_le rest n true)
        · exact ih n true l h
      | false =>
        simp only [labelRunsAux, Bool.false_eq_true, if_true, if_false, List.mem_cons] at hl
        simp only [nRunsAux, Bool.false_eq_true, if_true, if_false]
        rcases hl with h | h
        · exact Or.inr (h ▸ nRunsAux_le rest (n + 1) true)
        · exact ih (n + 1) true l h
    | false =>
      simp only [labelRunsAux, Bool.false_eq_true, if_false, List.mem_cons] at hl
      simp only [nRunsAux, Bool.false_eq_true, if_false]
      rcases hl with h | h
      · exact Or.inl h
      · exact ih n false l h

theorem labelRuns_le (m : List Bool) (l : ℕ) (hl : l ∈ labelRuns m) :
    l = 0 ∨ l ≤ nRuns m :=
  labelRunsAux_le m 0 false l hl

/-- Every id between the starting count (exclusive) and the final count
(inclusive) actually occurs as a label. -/
theorem labelRunsAux_mem (m : List Bool) :
    ∀ n prev k, n < k → k ≤ nRunsAux m n prev → k ∈ labelRunsAux m n prev := by
  induction m with
  | nil =>
    intro n prev k h1 h2
    simp only [nRunsAux] at h2
    omega
  | cons b rest ih =>
    intro n prev k h1 h2
    cases b with
    | true =>
      cases prev with
      | true =>
        simp only [nRunsAux, if_true] at h2
        simp only [labelRunsAux, if_true, List.mem_cons]
        exact Or.inr (ih n true k h1 h2)
      | false =>
        simp only [nRunsAux, Bool.false_eq_true, if_true, if_false] at h2
        simp only [labelRunsAux, Bool.false_eq_true, if_true, if_false, List.mem_cons]
        by_cases hk : k = n + 1
        · exact Or.inl hk
        · exact Or.inr (ih (n + 1) true k (by omega) h2)
    | false =>
      simp only [nRunsAux, Bool.false_eq_true, if_false] at h2
      simp only [labelRunsAux, Bool.false_eq_true, if_false, List.mem_cons]
      exact Or.inr (ih n false k h1 h2)

theorem labelRuns_mem (m : List Bool) (k : ℕ) (h1 : 1 ≤ k) (h2 : k ≤ nRuns m) :
    k ∈ labelRuns m :=
  labelRunsAux_mem m 0 false k h1 h2

/-- Extent of the cluster labelled `i`:
`np.count_nonzero(np.equal(cmap, i))` (for a 1-D map the criterion axes tuple
is empty and `.any(axes)` is the identity). -/
def clusterSize (cmap : List ℕ) (i : ℕ) : ℕ :=
  cmap.countP (fun l => decide (l = i))

/-- The id list `np.arange(1, n + 1, 1, np.uint32)`. -/
def initialCids (n : ℕ) : List ℕ := (List.range n).map (· + 1)

theorem mem_initialCids (n k : ℕ) : k ∈ initialCids n ↔ 1 ≤ k ∧ k ≤ n := by
  simp only [initialCids, List.mem_map, List.mem_range]
  constructor
  · rintro ⟨j, hj, rfl⟩; omega
  · rintro ⟨h1, h2⟩; exact ⟨k - 1, by omega, by omega⟩

theorem initialCids_nodup (n : ℕ) : (initialCids n).Nodup :=
  (List.nodup_range n).map (fun a b => by omega)

/-- The minimum-size filtering loop of `_label_clusters_binary`: for each
criterion `(axes, v)` (in the 1-D instance just `v`), drop every id whose
cluster extent is `< v` (`np.setdiff1d(cids, [i for i in cids if … < v])`). -/
def filterCids (cmap : List ℕ) (criteria : List ℕ) (cids : List ℕ) : List ℕ :=
  criteria.foldl (fun acc v => acc.filter (fun i => decide (¬ clusterSize cmap i < v))) cids

/-- `_label_clusters_binary` (1-D, `all_adjacent` instance): label the mask
with `ndimage.label`, produce the id list `1 … n`, then apply the minimum
cluster size criteria.  Survivors keep their original labels. -/
def labelClustersBinary (bin_map : List Bool) (criteria : Option (List ℕ)) :
    List ℕ × List ℕ :=
  let cmap := labelRuns bin_map
  let cids := initialCids (nRuns bin_map)
  match criteria with
  | none => (cmap, cids)
  | some cs => (cmap, filterCids cmap cs cids)

theorem filterCids_sublist (cmap : List ℕ) (criteria : List ℕ) :
    ∀ cids, (filterCids cmap criteria cids).Sublist cids := by
  induction criteria with
  | nil => intro cids; simp [filterCids]
  | cons c cs ih =>
    intro cids
    simp only [filterCids, List.foldl_cons]
    exact (ih _).trans (List.filter_sublist _)

theorem filterCids_subset (cmap : List ℕ) (criteria : List ℕ) (cids : List ℕ) :
    filterCids cmap criteria cids ⊆ cids :=
  (filterCids_sublist cmap criteria cids).subset

theorem filterCids_length_le (cmap : List ℕ) (criteria : List ℕ) (cids : List ℕ) :
    (filterCids cmap criteria cids).length ≤ cids.length :=
  (filterCids_sublist cmap criteria cids).length_le

/-- **C8** — Criteria monotonicity: labeling a boolean map with a
minimum-extent criterion yields a subset of the ids obtained without a
criterion (so the surviving cluster count never increases), and a criterion of
minimum extent 0 returns exactly the same surviving ids as no criterion. -/
theorem criteria_monotone (bin_map : List Bool) (v : ℕ) :
    (labelClustersBinary bin_map (some [v])).2 ⊆ (labelClustersBinary bin_map none).2 ∧
    (labelClustersBinary bin_map (some [v])).2.length ≤ (labelClustersBinary bin_map none).2.length ∧
    (labelClustersBinary bin_map (some [0])).2 = (labelClustersBinary bin_map none).2 := by
  refine ⟨filterCids_subset _ _ _, filterCids_length_le _ _ _, ?_⟩
  simp only [labelClustersBinary, filterCids, List.foldl_cons, List.foldl_nil]
  exact List.filter_eq_self.2 (fun a _ => by simp)

theorem foldr_max_le_of_mem {α : Type} [LinearOrder α] {a : α} {l : List α} (b : α)
    (h : a ∈ l) : a ≤ l.foldr max b := by
  induction l with
  | nil => cases h
  | cons c t ih =>
    rcases List.mem_cons.1 h with h | h
    · subst h; exact le_max_left _ _
    · exact le_trans (ih h) (le_max_right _ _)

theorem le_foldr_max {α : Type} [LinearOrder α] (l : List α) (b : α) :
    b ≤ l.foldr max b := by
  induction l with
  | nil => exact le_refl b
  | cons c t ih => exact le_trans ih (le_max_right _ _)

theorem foldr_max_mem {α : Type} [LinearOrder α] (l : List α) (b : α) :
    l.foldr max b = b ∨ l.foldr max b ∈ l := by
  induction l with
  | nil => exact Or.inl rfl
  | cons c t ih =>
    simp only [List.foldr_cons, List.mem_cons]
    rcases max_choice c (t.foldr max b) with h | h
    · exact Or.inr (Or.inl h)
    · rw [h]
      rcases ih with h2 | h2
      · exact Or.inl h2
      · exact Or.inr (Or.inr h2)

theorem foldr_min_le_of_mem {α : Type} [LinearOrder α] {a : α} {l : List α} (b : α)
    (h : a ∈ l) : l.foldr min b ≤ a := by
  induction l with
  | nil => cases h
  | cons c t ih =>
    rcases List.mem_cons.1 h with h | h
    · subst h; exact min_le_left _ _
    · exact le_trans (min_le_right _ _) (ih h)

theorem foldr_min_mem {α : Type} [LinearOrder α] (l : List α) (b : α) :
    l.foldr min b = b ∨ l.foldr min b ∈ l := by
  induction l with
  | nil => exact Or.inl rfl
  | cons c t ih =>
    simp only [List.foldr_cons, List.mem_cons]
    rcases min_choice c (t.foldr min b) with h | h
    · exact Or.inr (Or.inl h)
    · rw [h]
      rcases ih with h2 | h2
      · exact Or.inl h2
      · exact Or.inr (Or.inr h2)

/-- The cluster map returned by `_label_clusters_binary` is the raw
`ndimage.label` map: the criteria filter ids but never touch the map. -/
theorem labelClustersBinary_fst (bin_map : List Bool) (criteria : Option (List ℕ)) :
    (labelClustersBinary bin_map criteria).1 = labelRuns bin_map := by
  cases criteria <;> rfl

/-- The ids returned by `_label_clusters_binary` are among the initially
assigned ids `1 … n`. -/
theorem labelClustersBinary_cids_subset (bin_map : List Bool) (criteria : Option (List ℕ)) :
    (labelClustersBinary bin_map criteria).2 ⊆ initialCids (nRuns bin_map) := by
  cases criteria with
  | none => exact fun x hx => hx
  | some cs => exact filterCids_subset _ _ _

/-- `_label_clusters` (1-D instance): threshold the statistic map according to
`tail` and label the resulting mask(s).  For `tail = 0` the positive mask
(`stat_map > threshold`) and the negative mask (`stat_map < -threshold`) are
labelled independently; the negative labels are offset by `cmap.max()`
(`int_buff[bin_map_below] += x; cids_l += x`), added into the positive map
(`cmap += int_buff`), and the id lists are concatenated. -/
def labelClusters (stat_map : List ℚ) (threshold : ℚ) (tail : ℤ)
    (criteria : Option (List ℕ)) : List ℕ × List ℕ :=
  if 0 < tail then
    labelClustersBinary (stat_map.map (fun v => decide (threshold < v))) criteria
  else if tail < 0 then
    labelClustersBinary (stat_map.map (fun v => decide (v < -threshold))) criteria
  else
    let bin_map_below := stat_map.map (fun v => decide (v < -threshold))
    let pos := labelClustersBinary (stat_map.map (fun v => decide (threshold < v))) criteria
    let neg := labelClustersBinary bin_map_below criteria
    let x := pos.1.foldr max 0
    let int_buff := List.zipWith (fun (b : Bool) l => if b then l + x else l) bin_map_below neg.1
    (List.zipWith (· + ·) pos.1 int_buff, pos.2 ++ (neg.2.map (· + x)))

/-- **C4** — Disjoint bipolar ids: for a two-tailed labeling (`tail = 0`) the
returned id list is the list of positive-mask ids followed by the
negative-mask ids offset by the maximum positive label, and no id occurs in
both parts: the positive-cluster and negative-cluster id sets are disjoint. -/
theorem bipolar_ids_disjoint (stat_map : List ℚ) (threshold : ℚ)
    (criteria : Option (List ℕ)) :
    (labelClusters stat_map threshold 0 criteria).2 =
      (labelClustersBinary (stat_map.map (fun v => decide (threshold < v))) criteria).2 ++
      ((labelClustersBinary (stat_map.map (fun v => decide (v < -threshold))) criteria).2.map
        (· + (labelClustersBinary (stat_map.map (fun v => decide (threshold < v))) criteria).1.foldr max 0)) ∧
    ∀ i,
      i ∈ (labelClustersBinary (stat_map.map (fun v => decide (threshold < v))) criteria).2 →
      i ∉ ((labelClustersBinary (stat_map.map (fun v => decide (v < -threshold))) criteria).2.map
        (· + (labelClustersBinary (stat_map.map (fun v => decide (threshold < v))) criteria).1.foldr max 0)) := by
  constructor
  · simp [labelClusters]
  · intro i hpos hneg
    set above := stat_map.map (fun v => decide (threshold < v)) with habove
    set x := (labelClustersBinary above criteria).1.foldr max 0 with hx
    -- the positive id `i` is at most the maximum positive label `x`
    have hi : 1 ≤ i ∧ i ≤ nRuns above :=
      (mem_initialCids _ i).1 (labelClustersBinary_cids_subset above criteria hpos)
    have hn1 : 1 ≤ nRuns above := le_trans hi.1 hi.2
    have hmem : nRuns above ∈ (labelClustersBinary above criteria).1 := by
      rw [labelClustersBinary_fst]
      exact labelRuns_mem above (nRuns above) hn1 (le_refl _)
    have hxle : nRuns above ≤ x := foldr_max_le_of_mem 0 hmem
    -- every offset negative id is strictly greater than `x`
    rcases List.mem_map.1 hneg with ⟨c, hc, hci⟩
    have hc1 : 1 ≤ c ∧ _ :=
      (mem_initialCids _ c).1 (labelClustersBinary_cids_subset _ criteria hc)
    omega

/-- The cluster-map cleanup performed by `_ClusterDist.add_original`:
`idx = np.in1d(cmap, cids, invert=True).reshape(self.shape); cmap[idx] = 0`
zeroes every label that is not a surviving id. -/
def cleanClusterMap (cmap : List ℕ) (cids : List ℕ) : List ℕ :=
  cmap.map (fun l => if l ∈ cids then l else 0)

/-- **C5 counterexample** — the mask `[T, F, T, T]` labels as `[1, 0, 2, 2]`;
with minimum extent 2 only cluster 2 survives (k = 1 surviving cluster), and
after the `add_original` cleanup the cluster map is `[0, 0, 2, 2]`: the
remaining positive label is 2, not the dense renumbering `{1, …, k} = {1}`
asserted by the claim. -/
theorem cluster_ids_not_renumbered :
    (labelClustersBinary [true, false, true, true] (some [2])).2 = [2] ∧
    cleanClusterMap (labelClustersBinary [true, false, true, true] (some [2])).1
      (labelClustersBinary [true, false, true, true] (some [2])).2 = [0, 0, 2, 2] ∧
    ¬ (∀ l ∈ cleanClusterMap (labelClustersBinary [true, false, true, true] (some [2])).1
        (labelClustersBinary [true, false, true, true] (some [2])).2,
        l = 0 ∨ l ∈ initialCids 1) := by
  refine ⟨by decide, by decide, ?_⟩
  intro h
  have := h 2 (by decide)
  revert this
  decide

/-- **C5 amended** — after dropping components that fail the minimum-extent
criteria, the surviving ids are *not* renumbered densely: they keep their
original labels, forming a strictly sorted subset of `{1, …, n}` (`n` =
number of connected components), and the positive labels remaining in the
cleaned cluster map are exactly the surviving ids. -/
theorem cluster_ids_after_filtering (bin_map : List Bool) (cs : List ℕ) :
    List.Sorted (· < ·) (labelClustersBinary bin_map (some cs)).2 ∧
    (∀ c ∈ (labelClustersBinary bin_map (some cs)).2, 1 ≤ c ∧ c ≤ nRuns bin_map) ∧
    (∀ l ∈ cleanClusterMap (labelClustersBinary bin_map (some cs)).1
        (labelClustersBinary bin_map (some cs)).2,
      l ≠ 0 → l ∈ (labelClustersBinary bin_map (some cs)).2) ∧
    (∀ c ∈ (labelClustersBinary bin_map (some cs)).2,
      c ∈ cleanClusterMap (labelClustersBinary bin_map (some cs)).1
        (labelClustersBinary bin_map (some cs)).2) := by
  set cmap := (labelClustersBinary bin_map (some cs)).1 with hcmap
  set cids := (labelClustersBinary bin_map (some cs)).2 with hcids
  have hsub : cids ⊆ initialCids (nRuns bin_map) :=
    labelClustersBinary_cids_subset bin_map (some cs)
  refine ⟨?_, ?_, ?_, ?_⟩
  · -- sorted: a sublist of the sorted initial id list
    have hinit : List.Sorted (· < ·) (initialCids (nRuns bin_map)) := by
      exact (List.pairwise_lt_range _).map _ (fun a b h => by omega)
    exact hinit.sublist (filterCids_sublist _ _ _)
  · exact fun c hc => (mem_initialCids _ c).1 (hsub hc)
  · intro l hl hl0
    rcases List.mem_map.1 hl with ⟨l0, _, hf⟩
    by_cases hmem : l0 ∈ cids
    · rw [if_pos hmem] at hf
      exact hf ▸ hmem
    · rw [if_neg hmem] at hf
      exact absurd hf.symm hl0
  · intro c hc
    have hb := (mem_initialCids _ c).1 (hsub hc)
    have hcm : c ∈ cmap := by
      rw [hcmap, labelClustersBinary_fst]
      exact labelRuns_mem bin_map c hb.1 hb.2
    exact List.mem_map.2 ⟨c, hcm, by rw [if_pos hc]⟩

/-- `ndarray.max()` for a 1-D array (NumPy raises on an empty array; the
`headD 0` seed is only a total-function artefact and never matters for
nonempty input). -/
def npMax (l : List ℚ) : ℚ := l.foldr max (l.headD 0)

/-- `ndarray.min()` for a 1-D array. -/
def npMin (l : List ℚ) : ℚ := l.foldr min (l.headD 0)

/-- `scipy.ndimage.sum(param_map, cluster_map, cid)`: the summed statistic of
the cluster labelled `cid`. -/
def ndimageSum (param_map : List ℚ) (cluster_map : List ℕ) (cid : ℕ) : ℚ :=
  (List.zipWith (fun v l => if l = cid then v else 0) param_map cluster_map).sum

/-- The permutation p-value of one cluster with summed statistic `v`:
`n_larger = np.sum(dist > np.abs(v)); p = n_larger / samples` (strict
comparison, as in `compute_probability_map` and `clusters`). -/
def clusterPValue (dist : List ℚ) (samples : ℕ) (v : ℚ) : ℚ :=
  (dist.countP (fun d => decide (|v| < d)) : ℚ) / (samples : ℚ)

/-- The `kind == 'cluster'` branch of `_ClusterDist.compute_probability_map`
(1-D, no `sub` restriction, so `_aggregate_dist` returns `dist` itself):
start from `np.ones(shape)`; when clusters exist, overwrite the samples of
each surviving cluster with that cluster's p-value.  `n_clusters` is the
count stored by `add_original` (`len(cids)` for the cluster kind). -/
def computeProbabilityMapCluster (param_map : List ℚ) (cluster_map : List ℕ)
    (cids : List ℕ) (dist : List ℚ) (samples : ℕ) (n_clusters : ℕ) : List ℚ :=
  let cpmap := List.replicate cluster_map.length (1 : ℚ)
  if n_clusters = 0 then cpmap
  else
    cids.foldl (fun m cid =>
      List.zipWith (fun l p =>
          if l = cid then clusterPValue dist samples (ndimageSum param_map cluster_map cid)
          else p)
        cluster_map m) cpmap

/-- Pointwise behaviour of the per-cluster assignment loop: after folding the
assignments over `ids`, position `i` holds `f label` when `i`'s label occurs
in `ids`, and its previous value otherwise; the buffer length is preserved. -/
theorem assign_foldl_getD (cluster_map : List ℕ) (f : ℕ → ℚ) (ids : List ℕ) :
    ∀ (m : List ℚ), m.length = cluster_map.length → ∀ i, i < cluster_map.length →
    (ids.foldl (fun m cid =>
        List.zipWith (fun l p => if l = cid then f cid else p) cluster_map m) m).length
      = cluster_map.length ∧
    (ids.foldl (fun m cid =>
        List.zipWith (fun l p => if l = cid then f cid else p) cluster_map m) m).getD i 0
      = if cluster_map.getD i 0 ∈ ids then f (cluster_map.getD i 0) else m.getD i 0 := by
  induction ids with
  | nil => intro m hm i hi; simpa using hm
  | cons cid ids ih =>
    intro m hm i hi
    simp only [List.foldl_cons]
    set m1 := List.zipWith (fun l p => if l = cid then f cid else p) cluster_map m with hm1
    have hm1len : m1.length = cluster_map.length := by
      simp [hm1, List.length_zipWith, hm]
    obtain ⟨hlen, hval⟩ := ih m1 hm1len i hi
    refine ⟨hlen, ?_⟩
    rw [hval]
    have him : i < m1.length := by omega
    have hic : i < cluster_map.length := hi
    have hm1i : m1.getD i 0 = if cluster_map.getD i 0 = cid then f cid
        else m.getD i 0 := by
      rw [List.getD_eq_getElem m1 0 him, List.getD_eq_getElem cluster_map 0 hic,
        List.getD_eq_getElem m 0 (by omega)]
      simp [hm1, List.getElem_zipWith]
    rw [hm1i]
    by_cases h1 : cluster_map.getD i 0 ∈ ids
    · rw [if_pos h1, if_pos (List.mem_cons.2 (Or.inr h1))]
    · by_cases h2 : cluster_map.getD i 0 = cid
      · rw [if_neg h1, if_pos h2, if_pos (List.mem_cons.2 (Or.inl h2)), h2]
      · have hnc : cluster_map.getD i 0 ∉ cid :: ids := by
          intro hc
          rcases List.mem_cons.1 hc with h | h
          · exact h2 h
          · exact h1 h
        rw [if_neg h1, if_neg h2, if_neg hnc]

/-- **C1** — for a cluster-kind distribution the finalized probability map
gives every sample of a surviving cluster `c` the value
(#permutations whose aggregated maximum cluster statistic strictly exceeds
`|summed statistic of c|`) / samples, and gives 1 to every sample that
belongs to no surviving cluster. -/
theorem cluster_probability_map (param_map : List ℚ) (cluster_map : List ℕ)
    (cids : List ℕ) (dist : List ℚ) (samples : ℕ) (i : ℕ)
    (hi : i < cluster_map.length) :
    (cluster_map.getD i 0 ∈ cids →
      (computeProbabilityMapCluster param_map cluster_map cids dist samples cids.length).getD i 0
        = (dist.countP (fun d =>
            decide (|ndimageSum param_map cluster_map (cluster_map.getD i 0)| < d)) : ℚ)
          / (samples : ℚ)) ∧
    (cluster_map.getD i 0 ∉ cids →
      (computeProbabilityMapCluster param_map cluster_map cids dist samples cids.length).getD i 0
        = 1) := by
  have hrep : (List.replicate cluster_map.length (1 : ℚ)).getD i 0 = 1 := by
    rw [List.getD_eq_getElem _ 0 (by simpa using hi)]
    simp
  constructor
  · intro hmem
    have hne : cids.length ≠ 0 := by
      have := List.length_pos.2 (List.ne_nil_of_mem hmem)
      omega
    unfold computeProbabilityMapCluster
    rw [if_neg hne]
    obtain ⟨-, hval⟩ := assign_foldl_getD cluster_map
      (fun cid => clusterPValue dist samples (ndimageSum param_map cluster_map cid)) cids
      (List.replicate cluster_map.length (1 : ℚ)) (by simp) i hi
    rw [hval, if_pos hmem]
    rfl
  · intro hmem
    unfold computeProbabilityMapCluster
    by_cases hne : cids.length = 0
    · rw [if_pos hne]
      exact hrep
    · rw [if_neg hne]
      obtain ⟨-, hval⟩ := assign_foldl_getD cluster_map
        (fun cid => clusterPValue dist samples (ndimageSum param_map cluster_map cid)) cids
        (List.replicate cluster_map.length (1 : ℚ)) (by simp) i hi
      rw [hval, if_neg hmem]
      exact hrep

/-- Witness for `cluster_probability_map`: the map `[3, 3, 0]` with cluster
map `[1, 1, 0]`, one surviving cluster (sum 6), one permutation with
aggregated statistic 2. -/
theorem cluster_probability_map_witness :
    0 < ([1, 1, 0] : List ℕ).length ∧
    ((([1, 1, 0] : List ℕ).getD 0 0 ∈ [1] →
      (computeProbabilityMapCluster [3, 3, 0] [1, 1, 0] [1] [2] 1 ([1] : List ℕ).length).getD 0 0
        = (([2] : List ℚ).countP (fun d =>
            decide (|ndimageSum [3, 3, 0] [1, 1, 0] (([1, 1, 0] : List ℕ).getD 0 0)| < d)) : ℚ)
          / (1 : ℕ)) ∧
    (([1, 1, 0] : List ℕ).getD 0 0 ∉ [1] →
      (computeProbabilityMapCluster [3, 3, 0] [1, 1, 0] [1] [2] 1 ([1] : List ℕ).length).getD 0 0
        = 1)) :=
  ⟨by decide, cluster_probability_map [3, 3, 0] [1, 1, 0] [1] [2] 1 0 (by decide)⟩

/-- The `p` column of the cluster table built by `_ClusterDist.clusters`
(cluster kind, `samples > 0`, no `sub` restriction): one p-value per
surviving cluster, `n_larger / samples` with strict comparison against the
absolute summed statistic. -/
def clustersTableP (param_map : List ℚ) (cluster_map : List ℕ) (cids : List ℕ)
    (dist : List ℚ) (samples : ℕ) : List ℚ :=
  cids.map (fun cid => clusterPValue dist samples (ndimageSum param_map cluster_map cid))

/-- `ClusterProcessor.max_stat` (no parc): reduce one permuted statistic map
to the scalar entering the null distribution — label at the configured
threshold, sum the statistic within each surviving cluster, and return the
(for `tail ≤ 0` absolute) maximum cluster sum, or 0 when no cluster
survives. -/
def clusterProcessorMaxStat (stat_map : List ℚ) (threshold : ℚ) (tail : ℤ)
    (criteria : Option (List ℕ)) : ℚ :=
  let labeled := labelClusters stat_map threshold tail criteria
  if labeled.2.length ≠ 0 then
    let clusters_v := labeled.2.map (fun cid => ndimageSum stat_map labeled.1 cid)
    npMax (if tail ≤ 0 then clusters_v.map (fun v => |v|) else clusters_v)
  else 0

/-- **C2 counterexample** — original map `[3, 3, 0]`, threshold 2, one-tailed:
one cluster with summed statistic 6.  A single permutation whose permuted map
is `[0, 0, 0]` contributes the null-distribution entry 0, so the reported
p-value is `#(dist > 6) / 1 = 0`, which lies below the claimed lower bound
`1/(n+1) = 1/2`. -/
theorem cluster_p_value_below_claimed_bound :
    clusterProcessorMaxStat [0, 0, 0] 2 1 none = 0 ∧
    clustersTableP [3, 3, 0] (labelClusters [3, 3, 0] 2 1 none).1
      (labelClusters [3, 3, 0] 2 1 none).2
      [clusterProcessorMaxStat [0, 0, 0] 2 1 none] 1 = [0] ∧
    ¬ ((1 : ℚ) / (1 + 1) ≤ 0) := by
  have h0 : clusterProcessorMaxStat [0, 0, 0] 2 1 none = 0 := by decide
  refine ⟨h0, ?_, by norm_num⟩
  have hlab : labelClusters [3, 3, 0] 2 1 none = ([1, 1, 0], [1]) := by decide
  rw [h0, hlab]
  norm_num [clustersTableP, clusterPValue, ndimageSum, List.countP_cons]

/-- **C2 amended** — with `n = samples ≥ 1` permutations and one
null-distribution entry per permutation, every p-value reported in the
cluster table equals (#permutations with larger statistic)/n and lies in
`[0, 1]`; the claimed lower bound `1/(n+1)` does not hold in general
(p = 0 occurs when no permutation statistic exceeds the cluster
statistic). -/
theorem cluster_p_value_bounds (param_map : List ℚ) (cluster_map : List ℕ)
    (cids : List ℕ) (dist : List ℚ) (samples : ℕ)
    (hs : 1 ≤ samples) (hd : dist.length = samples) :
    ∀ p ∈ clustersTableP param_map cluster_map cids dist samples,
      0 ≤ p ∧ p ≤ 1 ∧
      ∃ cid ∈ cids,
        p = (dist.countP (fun d =>
              decide (|ndimageSum param_map cluster_map cid| < d)) : ℚ) / (samples : ℚ) := by
  intro p hp
  rcases List.mem_map.1 hp with ⟨cid, hcid, rfl⟩
  simp only [clusterPValue]
  have hspos : (0 : ℚ) < (samples : ℚ) := by
    exact_mod_cast Nat.lt_of_lt_of_le Nat.zero_lt_one hs
  have hcount : (dist.countP (fun d =>
      decide (|ndimageSum param_map cluster_map cid| < d))) ≤ samples := by
    rw [← hd]
    exact List.countP_le_length _
  refine ⟨div_nonneg (by positivity) (le_of_lt hspos), ?_, cid, hcid, rfl⟩
  rw [div_le_one hspos]
  exact_mod_cast hcount

/-- Witness for `cluster_p_value_bounds`: the one-cluster, one-permutation
configuration of the counterexample. -/
theorem cluster_p_value_bounds_witness :
    1 ≤ 1 ∧ ([0] : List ℚ).length = 1 ∧
    ∀ p ∈ clustersTableP [3, 3, 0] [1, 1, 0] [1] [0] 1,
      0 ≤ p ∧ p ≤ 1 ∧
      ∃ cid ∈ [1],
        p = (([0] : List ℚ).countP (fun d =>
              decide (|ndimageSum [3, 3, 0] [1, 1, 0] cid| < d)) : ℚ) / ((1 : ℕ) : ℚ) :=
  ⟨le_refl 1, by decide, cluster_p_value_bounds [3, 3, 0] [1, 1, 0] [1] [0] 1
    (le_refl 1) (by decide)⟩

theorem le_npMax {l : List ℚ} {v : ℚ} (hv : v ∈ l) : v ≤ npMax l :=
  foldr_max_le_of_mem _ hv

theorem npMax_mem (l : List ℚ) (hne : l ≠ []) : npMax l ∈ l := by
  rcases foldr_max_mem l (l.headD 0) with h | h
  · rw [npMax, h]
    cases l with
    | nil => exact absurd rfl hne
    | cons a t => simp
  · exact h

theorem npMin_le {l : List ℚ} {v : ℚ} (hv : v ∈ l) : npMin l ≤ v :=
  foldr_min_le_of_mem _ hv

theorem npMin_mem (l : List ℚ) (hne : l ≠ []) : npMin l ∈ l := by
  rcases foldr_min_mem l (l.headD 0) with h | h
  · rw [npMin, h]
    cases l with
    | nil => exact absurd rfl hne
    | cons a t => simp
  · exact h

/-- `StatMapProcessor.max_stat` (raw kind, `max_axes=None`, `parc=None`):
returns the stat-map buffer (possibly mutated) together with the reduced
scalar.  For `tail == 0` the code runs `np.abs(stat_map, stat_map)` — the
output argument is the input buffer, so the caller's map is overwritten with
its element-wise absolute value; for `tail != 0` the buffer is only read. -/
def statMapProcessorMaxStat (tail : ℤ) (stat_map : List ℚ) : List ℚ × ℚ :=
  if tail = 0 then
    let stat_map := stat_map.map (fun v => |v|)
    (stat_map, npMax stat_map)
  else if 0 < tail then (stat_map, npMax stat_map)
  else (stat_map, -(npMin stat_map))

/-- **C9** — frame effect of the raw map reducer: for `tail = 0` the returned
buffer is the element-wise absolute value of the input (the caller's map is
mutated) and the scalar is `max(|stat|)`; for `tail ≠ 0` the buffer is
returned unchanged and the scalar is `max(stat)` (`tail > 0`) resp.
`-min(stat)` (`tail < 0`). -/
theorem max_stat_mutation (tail : ℤ) (stat_map : List ℚ) (hne : stat_map ≠ []) :
    (tail = 0 →
      (statMapProcessorMaxStat tail stat_map).1 = stat_map.map (fun v => |v|) ∧
      (∀ v ∈ stat_map, |v| ≤ (statMapProcessorMaxStat tail stat_map).2) ∧
      (∃ v ∈ stat_map, (statMapProcessorMaxStat tail stat_map).2 = |v|)) ∧
    (tail ≠ 0 → (statMapProcessorMaxStat tail stat_map).1 = stat_map) ∧
    (0 < tail →
      (∀ v ∈ stat_map, v ≤ (statMapProcessorMaxStat tail stat_map).2) ∧
      (∃ v ∈ stat_map, (statMapProcessorMaxStat tail stat_map).2 = v)) ∧
    (tail < 0 →
      (∀ v ∈ stat_map, -(statMapProcessorMaxStat tail stat_map).2 ≤ v) ∧
      (∃ v ∈ stat_map, (statMapProcessorMaxStat tail stat_map).2 = -v)) := by
  refine ⟨?_, ?_, ?_, ?_⟩
  · intro h0
    subst h0
    simp only [statMapProcessorMaxStat, if_pos rfl]
    refine ⟨rfl, ?_, ?_⟩
    · intro v hv
      exact le_npMax (List.mem_map.2 ⟨v, hv, rfl⟩)
    · have hne2 : stat_map.map (fun v => |v|) ≠ [] := by
        simpa using hne
      rcases List.mem_map.1 (npMax_mem _ hne2) with ⟨v, hv, hvm⟩
      exact ⟨v, hv, hvm.symm⟩
  · intro h0
    simp only [statMapProcessorMaxStat, if_neg h0]
    split <;> rfl
  · intro hpos
    have h0 : tail ≠ 0 := by omega
    simp only [statMapProcessorMaxStat, if_neg h0, if_pos hpos]
    exact ⟨fun v hv => le_npMax hv, npMax stat_map, npMax_mem _ hne, rfl⟩
  · intro hneg
    have h0 : tail ≠ 0 := by omega
    have hp : ¬ 0 < tail := by omega
    simp only [statMapProcessorMaxStat, if_neg h0, if_neg hp]
    refine ⟨fun v hv => by simpa using npMin_le hv, npMin stat_map, npMin_mem _ hne, by ring⟩

/-- Witness for `max_stat_mutation` at `stat_map = [1, -3]`, `tail = 0`. -/
theorem max_stat_mutation_witness :
    ([1, -3] : List ℚ) ≠ [] ∧
    ((0 : ℤ) = 0 →
      (statMapProcessorMaxStat 0 [1, -3]).1 = ([1, -3] : List ℚ).map (fun v => |v|) ∧
      (∀ v ∈ ([1, -3] : List ℚ), |v| ≤ (statMapProcessorMaxStat 0 [1, -3]).2) ∧
      (∃ v ∈ ([1, -3] : List ℚ), (statMapProcessorMaxStat 0 [1, -3]).2 = |v|)) ∧
    ((0 : ℤ) ≠ 0 → (statMapProcessorMaxStat 0 [1, -3]).1 = [1, -3]) ∧
    ((0 : ℤ) > 0 →
      (∀ v ∈ ([1, -3] : List ℚ), v ≤ (statMapProcessorMaxStat 0 [1, -3]).2) ∧
      (∃ v ∈ ([1, -3] : List ℚ), (statMapProcessorMaxStat 0 [1, -3]).2 = v)) ∧
    ((0 : ℤ) < 0 →
      (∀ v ∈ ([1, -3] : List ℚ), -(statMapProcessorMaxStat 0 [1, -3]).2 ≤ v) ∧
      (∃ v ∈ ([1, -3] : List ℚ), (statMapProcessorMaxStat 0 [1, -3]).2 = -v)) :=
  ⟨by simp, max_stat_mutation 0 [1, -3] (by simp)⟩

/-- The three reduction strategies of the distribution engine. -/
inductive Kind
  | raw
  | tfce
  | cluster
deriving DecidableEq

/-- The `threshold` argument of the `_ClusterDist` constructor: Python
`None`, a string, a value `float()` accepts (modelled as an exact rational),
or a value on which `float()` raises. -/
inductive ThresholdArg
  | null
  | str (s : String)
  | num (x : ℚ)
  | invalid
deriving DecidableEq

/-- Python `str.lower()` (ASCII model, which covers the `'tfce'`
comparison). -/
def pyLower (s : String) : String := String.mk (s.data.map Char.toLower)

/-- Threshold validation of `_ClusterDist.__init__`: `None` selects the raw
kind; a string selects TFCE iff it equals `'tfce'` after lowercasing
(otherwise `ValueError`); a numeric value selects the cluster kind iff it is
`> 0` (otherwise `ValueError`); a non-convertible value raises
`TypeError`. -/
def parseThreshold : ThresholdArg → Except String (Kind × Option ℚ)
  | .null => .ok (.raw, none)
  | .str s =>
    if pyLower s = "tfce" then .ok (.tfce, none)
    else .error "ValueError: Invalid value for pmin"
  | .num x =>
    if 0 < x then .ok (.cluster, some x)
    else .error "ValueError: Invalid value for pmin"
  | .invalid => .error "TypeError: Invalid value for pmin"

/-- **C7 counterexample** — the string `"TFCE"` differs from `"tfce"`, yet the
constructor accepts it (the comparison is against `threshold.lower()`),
contradicting the claim that every string other than `'tfce'` raises. -/
theorem threshold_tfce_case_insensitive :
    parseThreshold (.str "TFCE") = .ok (.tfce, none) ∧ "TFCE" ≠ "tfce" := by
  constructor
  · simp only [parseThreshold]
    rw [if_pos (by decide)]
  · decide

/-- **C7 amended** — kind selection of the constructor: `None ⇒ raw`;
a string whose lowercasing equals `'tfce'` ⇒ TFCE (case-insensitively, not
only the literal `'tfce'`); a numeric threshold `> 0` ⇒ cluster; every other
value (numeric `≤ 0`, non-convertible, or a string not spelling tfce) raises
at construction. -/
theorem threshold_kind_selection (arg : ThresholdArg) :
    (parseThreshold arg = .ok (.raw, none) ↔ arg = .null) ∧
    (parseThreshold arg = .ok (.tfce, none) ↔ ∃ s, arg = .str s ∧ pyLower s = "tfce") ∧
    ((∃ x, arg = .num x ∧ 0 < x ∧ parseThreshold arg = .ok (.cluster, some x)) ↔
      (∃ x, arg = .num x ∧ 0 < x)) ∧
    ((∃ e, parseThreshold arg = .error e) ↔
      ((∃ s, arg = .str s ∧ pyLower s ≠ "tfce") ∨ (∃ x, arg = .num x ∧ ¬ 0 < x) ∨
        arg = .invalid)) := by
  cases arg with
  | null => simp [parseThreshold]
  | str s =>
    by_cases h : pyLower s = "tfce" <;>
      simp [parseThreshold, h]
  | num x =>
    by_cases h : 0 < x
    · simp [parseThreshold, h]
    · simp only [parseThreshold, if_neg h]
      simp [h, le_of_not_lt h]
  | invalid => simp [parseThreshold]

/-- `np.arange(dh, stop, dh)` over exact rationals (`dh > 0`): the multiples
`dh, 2·dh, …` strictly below `stop`. -/
def arangePos (dh stop : ℚ) : List ℚ :=
  (List.range (⌈stop / dh⌉ - 1).toNat).map (fun (i : ℕ) => dh * ((i : ℚ) + 1))

theorem mem_arangePos (dh stop : ℚ) (hdh : 0 < dh) (q : ℚ) :
    q ∈ arangePos dh stop ↔ ∃ k : ℕ, 1 ≤ k ∧ q = dh * (k : ℚ) ∧ q < stop := by
  unfold arangePos
  rw [List.mem_map]
  constructor
  · rintro ⟨i, hi, rfl⟩
    rw [List.mem_range] at hi
    have hiz : (i : ℤ) < ⌈stop / dh⌉ - 1 := Int.lt_toNat.1 hi
    have hceil : ((i : ℤ) + 1 : ℤ) < ⌈stop / dh⌉ := by omega
    have hlt : ((i : ℚ) + 1) < stop / dh := by
      have := Int.lt_ceil.1 hceil
      push_cast at this
      linarith
    have hmul := (lt_div_iff₀ hdh).1 hlt
    refine ⟨i + 1, by omega, by push_cast; ring, ?_⟩
    linarith
  · rintro ⟨k, hk, rfl, hlt⟩
    refine ⟨k - 1, ?_, ?_⟩
    · rw [List.mem_range, Int.lt_toNat]
      have h1 : ((k : ℚ)) < stop / dh := (lt_div_iff₀ hdh).2 (by linarith)
      have h2 : (k : ℤ) < ⌈stop / dh⌉ := Int.lt_ceil.2 (by push_cast; linarith)
      omega
    · have hc : ((k - 1 : ℕ) : ℚ) = (k : ℚ) - 1 := by
        push_cast [Nat.cast_sub hk]
        ring
      rw [hc]
      ring

/-- The height slices (`hs`) of `_tfce`: for `tail = 0`
`np.hstack((np.arange(-dh, min, -dh), np.arange(dh, max, dh)))`, i.e. the
negative heights followed by the positive heights; one direction
otherwise. -/
def tfceHeights (stat_map : List ℚ) (tail : ℤ) (dh : ℚ) : List ℚ :=
  if tail = 0 then
    (arangePos dh (-(npMin stat_map))).map (fun h_ => -h_) ++
      arangePos dh (npMax stat_map)
  else if tail < 0 then (arangePos dh (-(npMin stat_map))).map (fun h_ => -h_)
  else arangePos dh (npMax stat_map)

/-- The `bin_buff` of one `_tfce` height slice: the at-or-beyond mask,
`np.greater_equal(stat_map, h_)` for positive heights and
`np.less_equal(stat_map, h_)` for negative ones. -/
def tfceMask (stat_map : List ℚ) (h_ : ℚ) : List Bool :=
  if 0 < h_ then stat_map.map (fun v => decide (h_ ≤ v))
  else stat_map.map (fun v => decide (v ≤ h_))

/-- The `h_factor` of one `_tfce` height slice: `h_ ** h` for positive
heights, `(-h_) ** h` for negative ones. -/
noncomputable def tfceHFactor (h : ℝ) (h_ : ℚ) : ℝ :=
  if 0 < h_ then ((h_ : ℝ)) ^ h else (((-h_ : ℚ) : ℝ)) ^ h

/-- One height slice of the `_tfce` loop: build the at-or-beyond mask, label
it with criteria disabled, and for every cluster id add
`np.count_nonzero(bin_buff) ** e * h_factor` to each of its samples
(`out[bin_buff] += v`). -/
noncomputable def tfceStep (stat_map : List ℚ) (e h : ℝ) (h_ : ℚ) (out : List ℝ) :
    List ℝ :=
  (labelClustersBinary (tfceMask stat_map h_) none).2.foldl (fun o id_ =>
    List.zipWith (fun l x =>
        if l = id_ then
          x + ((clusterSize (labelClustersBinary (tfceMask stat_map h_) none).1 id_ : ℝ) ^ e)
            * tfceHFactor h h_
        else x)
      (labelClustersBinary (tfceMask stat_map h_) none).1 o) out

/-- `_tfce` (1-D instance): zero the output buffer (`out.fill(0)`) and
accumulate every height slice; defaults `dh = 0.1`, `e = 0.5`, `h = 2.0`. -/
noncomputable def tfce (stat_map : List ℚ) (tail : ℤ) (dh : ℚ) (e h : ℝ) : List ℝ :=
  (tfceHeights stat_map tail dh).foldl (fun out h_ => tfceStep stat_map e h h_ out)
    (List.replicate stat_map.length 0)

/-- Spec-side formula: the TFCE contribution of height `h_` to sample `i` is
`(size of the connected cluster of the height mask containing the sample)^e
* |h_|^h`, and 0 when the sample belongs to no cluster at that height. -/
noncomputable def tfceClaimContribution (stat_map : List ℚ) (e h : ℝ) (h_ : ℚ)
    (i : ℕ) : ℝ :=
  if (labelRuns (tfceMask stat_map h_)).getD i 0 = 0 then 0
  else (clusterSize (labelRuns (tfceMask stat_map h_))
      ((labelRuns (tfceMask stat_map h_)).getD i 0) : ℝ) ^ e * (((|h_| : ℚ) : ℝ)) ^ h

/-- Spec-side formula: the enhanced value of sample `i` is the sum of its
per-height contributions over all height slices. -/
noncomputable def tfceClaimValue (stat_map : List ℚ) (tail : ℤ) (dh : ℚ) (e h : ℝ)
    (i : ℕ) : ℝ :=
  ((tfceHeights stat_map tail dh).map
    (fun h_ => tfceClaimContribution stat_map e h h_ i)).sum

theorem filter_eq_singleton_of_nodup (a : ℕ) (l : List ℕ) (hnd : l.Nodup)
    (ha : a ∈ l) : l.filter (fun x => decide (a = x)) = [a] := by
  induction l with
  | nil => cases ha
  | cons b t ih =>
    rcases List.mem_cons.1 ha with h | h
    · subst h
      rw [List.filter_cons_of_pos (by simp)]
      have hnt : a ∉ t := (List.nodup_cons.1 hnd).1
      rw [List.filter_eq_nil_iff.2 (fun x hx => by
        simp only [decide_eq_true_eq]
        exact fun he => hnt (he ▸ hx))]
    · have hba : a ≠ b := by
        rintro rfl
        exact (List.nodup_cons.1 hnd).1 h
      rw [List.filter_cons_of_neg (by simpa using hba)]
      exact ih (List.nodup_cons.1 hnd).2 h

/-- Pointwise behaviour of the per-cluster accumulation loop of `_tfce`:
folding the additive updates over `ids` adds `w id` to position `i` once for
every `id` in `ids` that equals `i`'s label. -/
theorem tfce_accumulate_foldl (cmap : List ℕ) (w : ℕ → ℝ) (ids : List ℕ) :
    ∀ (o : List ℝ), o.length = cmap.length → ∀ i, i < cmap.length →
    (ids.foldl (fun o id_ =>
        List.zipWith (fun l x => if l = id_ then x + w id_ else x) cmap o) o).length
      = cmap.length ∧
    (ids.foldl (fun o id_ =>
        List.zipWith (fun l x => if l = id_ then x + w id_ else x) cmap o) o).getD i 0
      = o.getD i 0 + ((ids.filter (fun id_ => decide (cmap.getD i 0 = id_))).map w).sum := by
  induction ids with
  | nil => intro o ho i hi; simpa using ho
  | cons id_ ids ih =>
    intro o ho i hi
    simp only [List.foldl_cons]
    set o1 := List.zipWith (fun l x => if l = id_ then x + w id_ else x) cmap o with ho1
    have ho1len : o1.length = cmap.length := by
      simp [ho1, List.length_zipWith, ho]
    obtain ⟨hlen, hval⟩ := ih o1 ho1len i hi
    refine ⟨hlen, ?_⟩
    rw [hval]
    have ho1i : o1.getD i 0 = if cmap.getD i 0 = id_ then o.getD i 0 + w id_
        else o.getD i 0 := by
      rw [List.getD_eq_getElem o1 0 (by omega), List.getD_eq_getElem cmap 0 hi,
        List.getD_eq_getElem o 0 (by omega)]
      simp [ho1, List.getElem_zipWith]
    by_cases hcase : cmap.getD i 0 = id_
    · rw [List.filter_cons_of_pos (by simpa using hcase), List.map_cons, List.sum_cons,
        ho1i, if_pos hcase, hcase]
      ring
    · rw [List.filter_cons_of_neg (by simpa using hcase), ho1i, if_neg hcase]

/-- Pointwise behaviour of one `_tfce` height slice: position `i` grows by
exactly its claimed contribution for that height. -/
theorem tfceStep_getD (stat_map : List ℚ) (e h : ℝ) (h_ : ℚ) (out : List ℝ)
    (hlen : out.length = stat_map.length) (i : ℕ) (hi : i < stat_map.length) :
    (tfceStep stat_map e h h_ out).length = stat_map.length ∧
    (tfceStep stat_map e h h_ out).getD i 0
      = out.getD i 0 + tfceClaimContribution stat_map e h h_ i := by
  have hmasklen : (tfceMask stat_map h_).length = stat_map.length := by
    unfold tfceMask; split <;> simp
  have hcmap : (labelClustersBinary (tfceMask stat_map h_) none).1
      = labelRuns (tfceMask stat_map h_) :=
    labelClustersBinary_fst (tfceMask stat_map h_) none
  have hcmaplen : (labelClustersBinary (tfceMask stat_map h_) none).1.length
      = stat_map.length := by
    rw [hcmap, labelRuns_length, hmasklen]
  have hfact : tfceHFactor h h_ = (((|h_| : ℚ) : ℝ)) ^ h := by
    unfold tfceHFactor
    by_cases hp : 0 < h_
    · rw [if_pos hp, abs_of_pos hp]
    · rw [if_neg hp, abs_of_nonpos (le_of_not_lt hp)]
  obtain ⟨hl, hv⟩ := tfce_accumulate_foldl
    (labelClustersBinary (tfceMask stat_map h_) none).1
    (fun id_ => ((clusterSize (labelClustersBinary (tfceMask stat_map h_) none).1 id_ : ℝ) ^ e)
      * tfceHFactor h h_)
    (labelClustersBinary (tfceMask stat_map h_) none).2 out (by omega) i (by omega)
  unfold tfceStep
  refine ⟨by rw [hl, hcmaplen], ?_⟩
  rw [hv]
  congr 1
  -- the filtered id list is `[label i]` when the label is positive, else `[]`
  unfold tfceClaimContribution
  simp only [hcmap]
  set L := (labelRuns (tfceMask stat_map h_)).getD i 0 with hL
  have hLmem0 : L ≠ 0 → L ∈ labelRuns (tfceMask stat_map h_) := by
    intro hL0
    rw [hL, List.getD_eq_getElem _ 0 (by rw [labelRuns_length, hmasklen]; omega)]
    exact List.getElem_mem _
  by_cases hL0 : L = 0
  · rw [List.filter_eq_nil_iff.2, List.map_nil, List.sum_nil, if_pos hL0]
    intro id_ hid
    have := (mem_initialCids _ id_).1 hid
    simp only [decide_eq_true_eq]
    omega
  · have hLle : L ≤ nRuns (tfceMask stat_map h_) := by
      rcases labelRuns_le (tfceMask stat_map h_) L (hLmem0 hL0) with h2 | h2
      · exact absurd h2 hL0
      · exact h2
    have hL1 : 1 ≤ L := by omega
    have hLcids : L ∈ initialCids (nRuns (tfceMask stat_map h_)) :=
      (mem_initialCids _ L).2 ⟨hL1, hLle⟩
    have h2 : (labelClustersBinary (tfceMask stat_map h_) none).2
        = initialCids (nRuns (tfceMask stat_map h_)) := rfl
    rw [h2, filter_eq_singleton_of_nodup L _ (initialCids_nodup _) hLcids,
      List.map_cons, List.map_nil, List.sum_cons, List.sum_nil, if_neg hL0, hfact]
    ring

/-- Accumulating the height slices of `_tfce` sums the per-height claimed
contributions. -/
theorem tfce_heights_foldl (stat_map : List ℚ) (e h : ℝ) (i : ℕ)
    (hi : i < stat_map.length) (hs : List ℚ) :
    ∀ (out : List ℝ), out.length = stat_map.length →
    (hs.foldl (fun out h_ => tfceStep stat_map e h h_ out) out).getD i 0
      = out.getD i 0 + (hs.map (fun h_ => tfceClaimContribution stat_map e h h_ i)).sum := by
  induction hs with
  | nil => intro out ho; simp
  | cons h_ hs ih =>
    intro out ho
    simp only [List.foldl_cons, List.map_cons, List.sum_cons]
    obtain ⟨hlen, hval⟩ := tfceStep_getD stat_map e h h_ out ho i hi
    rw [ih _ hlen, hval]
    ring

/-- **C3** — TFCE enhancement: with the defaults `dh = 0.1`, `e = 0.5`,
`h = 2.0`, every sample's enhanced value is the sum over the height slices of
`(size of the connected cluster of the height mask containing the sample)^0.5
· |height|^2`, samples in no cluster at a height contributing 0 there (hence
samples in no cluster at any height keep the value 0); the heights are the
multiples of `dh` strictly below `max(stat_map)` for the positive direction
(`tail ≥ 0`) and symmetrically the negatives of the multiples of `dh`
strictly above `min(stat_map)` for the negative direction (`tail ≤ 0`). -/
theorem tfce_enhancement (stat_map : List ℚ) (tail : ℤ) (i : ℕ)
    (hi : i < stat_map.length) :
    (tfce stat_map tail (1/10) (1/2) 2).getD i 0
      = tfceClaimValue stat_map tail (1/10) (1/2) 2 i ∧
    (∀ q : ℚ, q ∈ tfceHeights stat_map tail (1/10) ↔
      ((0 ≤ tail ∧ ∃ k : ℕ, 1 ≤ k ∧ q = (1/10) * (k : ℚ) ∧ q < npMax stat_map) ∨
       (tail ≤ 0 ∧ ∃ k : ℕ, 1 ≤ k ∧ q = -((1/10) * (k : ℚ)) ∧ npMin stat_map < q))) ∧
    ((∀ h_ ∈ tfceHeights stat_map tail (1/10),
        tfceClaimContribution stat_map (1/2) 2 h_ i = 0) →
      (tfce stat_map tail (1/10) (1/2) 2).getD i 0 = 0) := by
  have hmain : (tfce stat_map tail (1/10) (1/2) 2).getD i 0
      = tfceClaimValue stat_map tail (1/10) (1/2) 2 i := by
    unfold tfce tfceClaimValue
    rw [tfce_heights_foldl stat_map (1/2) 2 i hi _ _ (by simp)]
    rw [List.getD_eq_getElem _ 0 (by simpa using hi)]
    simp
  refine ⟨hmain, ?_, ?_⟩
  · intro q
    have hdh : (0 : ℚ) < 1/10 := by norm_num
    unfold tfceHeights
    rcases lt_trichotomy tail 0 with ht | ht | ht
    · rw [if_neg (by omega), if_pos ht]
      simp only [List.mem_map, mem_arangePos _ _ hdh]
      constructor
      · rintro ⟨p, ⟨k, hk, rfl, hlt⟩, rfl⟩
        exact Or.inr ⟨by omega, k, hk, rfl, by linarith⟩
      · rintro (⟨h0, -⟩ | ⟨-, k, hk, rfl, hgt⟩)
        · omega
        · exact ⟨(1/10) * (k : ℚ), ⟨k, hk, rfl, by linarith⟩, rfl⟩
    · subst ht
      rw [if_pos rfl]
      simp only [List.mem_append, List.mem_map, mem_arangePos _ _ hdh]
      constructor
      · rintro (⟨p, ⟨k, hk, rfl, hlt⟩, rfl⟩ | ⟨k, hk, rfl, hlt⟩)
        · exact Or.inr ⟨le_refl 0, k, hk, rfl, by linarith⟩
        · exact Or.inl ⟨le_refl 0, k, hk, rfl, hlt⟩
      · rintro (⟨-, k, hk, rfl, hlt⟩ | ⟨-, k, hk, rfl, hgt⟩)
        · exact Or.inr ⟨k, hk, rfl, hlt⟩
        · exact Or.inl ⟨(1/10) * (k : ℚ), ⟨k, hk, rfl, by linarith⟩, rfl⟩
    · rw [if_neg (by omega), if_neg (by omega)]
      rw [mem_arangePos _ _ hdh]
      constructor
      · rintro ⟨k, hk, rfl, hlt⟩
        exact Or.inl ⟨by omega, k, hk, rfl, hlt⟩
      · rintro (⟨-, k, hk, rfl, hlt⟩ | ⟨h0, -⟩)
        · exact ⟨k, hk, rfl, hlt⟩
        · omega
  · intro hall
    rw [hmain]
    unfold tfceClaimValue
    exact List.sum_eq_zero (fun x hx => by
      rcases List.mem_map.1 hx with ⟨h_, hh, rfl⟩
      exact hall h_ hh)

/-- Witness for `tfce_enhancement` at `stat_map = [1/4]`, `tail = 1`,
`i = 0`. -/
theorem tfce_enhancement_witness :
    0 < ([1/4] : List ℚ).length ∧
    ((tfce [1/4] 1 (1/10) (1/2) 2).getD 0 0
      = tfceClaimValue [1/4] 1 (1/10) (1/2) 2 0 ∧
    (∀ q : ℚ, q ∈ tfceHeights [1/4] 1 (1/10) ↔
      ((0 ≤ (1 : ℤ) ∧ ∃ k : ℕ, 1 ≤ k ∧ q = (1/10) * (k : ℚ) ∧ q < npMax [1/4]) ∨
       ((1 : ℤ) ≤ 0 ∧ ∃ k : ℕ, 1 ≤ k ∧ q = -((1/10) * (k : ℚ)) ∧ npMin [1/4] < q))) ∧
    ((∀ h_ ∈ tfceHeights [1/4] 1 (1/10),
        tfceClaimContribution [1/4] (1/2) 2 h_ 0 = 0) →
      (tfce [1/4] 1 (1/10) (1/2) 2).getD 0 0 = 0)) :=
  ⟨by decide, tfce_enhancement [1/4] 1 0 (by decide)⟩

theorem labelClusters_fst_length (stat_map : List ℚ) (threshold : ℚ) (tail : ℤ)
    (criteria : Option (List ℕ)) :
    (labelClusters stat_map threshold tail criteria).1.length = stat_map.length := by
  unfold labelClusters
  split
  · rw [labelClustersBinary_fst, labelRuns_length, List.length_map]
  · split
    · rw [labelClustersBinary_fst, labelRuns_length, List.length_map]
    · simp only [List.length_zipWith, labelClustersBinary_fst, labelRuns_length,
        List.length_map]
      omega

theorem cleanClusterMap_length (cmap : List ℕ) (cids : List ℕ) :
    (cleanClusterMap cmap cids).length = cmap.length := by
  simp [cleanClusterMap]

/-- The original maps stored by `add_original`, by kind: the cleaned cluster
map with its surviving ids, the TFCE-enhanced map, or (raw kind) the
parameter map itself. -/
inductive OriginalMaps
  | noMap
  | clusterKind (cmap : List ℕ) (cids : List ℕ)
  | tfceKind (enhanced : List ℝ)
  | rawKind (stat_map : List ℚ)

/-- State of a `_ClusterDist` (1-D instance: `parc=None`, no time cropping,
no axis swap).  `threshold` is only meaningful for the cluster kind (Python
keeps `None` otherwise); the Python truthy `n_clusters = True` of the
TFCE/raw kinds is modelled as 1. -/
structure ClusterDist where
  kind : Kind
  threshold : ℚ
  tail : ℤ
  criteria : Option (List ℕ)
  samples : ℕ
  force_permutation : Bool
  has_original : Bool
  do_permutation : Bool
  finalized : Bool
  original_param_map : List ℚ
  original : OriginalMaps
  n_clusters : ℕ
  dist : Option (List ℚ)

/-- `_ClusterDist.finalize`: freeze the object (the packaging of result
NDVars carries no further state in this model). -/
def ClusterDist.finalize (cd : ClusterDist) : ClusterDist :=
  { cd with finalized := true }

/-- The map-processing block of `_ClusterDist.add_original`: the stored
original map together with `n_clusters` — the cleaned cluster map, id list
and surviving count for the cluster kind; the enhanced map and the truthy
`n_clusters = True` (modelled as 1) for TFCE; the map itself for raw. -/
noncomputable def ClusterDist.addOriginalMaps (cd : ClusterDist) (stat_map : List ℚ) :
    OriginalMaps × ℕ :=
  match cd.kind with
  | .tfce => (.tfceKind (tfce stat_map cd.tail (1/10) (1/2) 2), 1)
  | .cluster =>
    (.clusterKind
      (cleanClusterMap (labelClusters stat_map cd.threshold cd.tail cd.criteria).1
        (labelClusters stat_map cd.threshold cd.tail cd.criteria).2)
      (labelClusters stat_map cd.threshold cd.tail cd.criteria).2,
     (labelClusters stat_map cd.threshold cd.tail cd.criteria).2.length)
  | .raw => (.rawKind stat_map, 1)

/-- `_ClusterDist.add_original` (1-D instance): raise if an original map was
already added; process the map according to the kind; then either allocate
the null-distribution buffer and mark the object ready to permute —
`if self.force_permutation or (self.samples and n_clusters)` — or set no
distribution and finalize immediately. -/
noncomputable def ClusterDist.add_original (cd : ClusterDist) (stat_map : List ℚ) :
    Except String ClusterDist :=
  if cd.has_original then .error "Original pmap already added"
  else if cd.force_permutation = true ∨
      (cd.samples ≠ 0 ∧ (cd.addOriginalMaps stat_map).2 ≠ 0) then
    .ok { cd with
          has_original := true, original_param_map := stat_map,
          original := (cd.addOriginalMaps stat_map).1,
          n_clusters := (cd.addOriginalMaps stat_map).2,
          dist := some (List.replicate cd.samples 0), do_permutation := true }
  else
    .ok (ClusterDist.finalize
      { cd with
        has_original := true, original_param_map := stat_map,
        original := (cd.addOriginalMaps stat_map).1,
        n_clusters := (cd.addOriginalMaps stat_map).2, dist := none })

/-- `_ClusterDist.compute_probability_map` on the state (cluster kind, 1-D,
no `sub`, so `_aggregate_dist` is the distribution itself): raises without
permutations, otherwise builds the per-cluster probability map.  (The
raw/TFCE branch compares each sample against the whole distribution instead;
no claim on this model needs it.) -/
def ClusterDist.compute_probability_map (cd : ClusterDist) : Except String (List ℚ) :=
  if cd.samples = 0 then
    .error "Cannot compute probability map without permutations"
  else
    match cd.original with
    | .clusterKind cmap cids =>
      .ok (computeProbabilityMapCluster cd.original_param_map cmap cids
        (cd.dist.getD []) cd.samples cd.n_clusters)
    | _ => .error "probability map for raw/tfce kinds is outside this model"

/-- The attribute dictionary produced by `_ClusterDist.__getstate__`
(restricted to the attributes this model carries). -/
structure PickleState where
  kind : Kind
  threshold : ℚ
  tail : ℤ
  criteria : Option (List ℕ)
  samples : ℕ
  n_clusters : ℕ
  dist : Option (List ℚ)
  original_param_map : List ℚ
  original : OriginalMaps

/-- `_ClusterDist.__getstate__`: raises unless the distribution has been
finalized; otherwise returns the persisted attributes. -/
def ClusterDist.getstate (cd : ClusterDist) : Except String PickleState :=
  if cd.finalized = false then
    .error "Cannot pickle cluster distribution before all permutations have been added."
  else
    .ok { kind := cd.kind, threshold := cd.threshold, tail := cd.tail,
          criteria := cd.criteria, samples := cd.samples, n_clusters := cd.n_clusters,
          dist := cd.dist, original_param_map := cd.original_param_map,
          original := cd.original }

/-- A cluster-kind distribution with `samples = 0` whose original map will
contain no cluster. -/
def zeroSampleClusterDist : ClusterDist :=
  { kind := .cluster, threshold := 2, tail := 0, criteria := none, samples := 0,
    force_permutation := false, has_original := false, do_permutation := false,
    finalized := false, original_param_map := [], original := .noMap,
    n_clusters := 0, dist := none }

/-- **C6 counterexample** — a cluster-kind distribution constructed with
`samples = 0`: `add_original` on the clusterless map `[0]` skips permutation
and finalizes as claimed, but no all-ones probability map results —
`compute_probability_map` raises (`if not self.samples: raise RuntimeError`).
So the final conjunct of the claim fails. -/
theorem zero_cluster_zero_samples_no_pmap :
    zeroSampleClusterDist.add_original [0]
      = .ok { zeroSampleClusterDist with
                has_original := true, original_param_map := [0],
                original := .clusterKind [0] [], n_clusters := 0,
                dist := none, finalized := true } ∧
    (∀ pm : List ℚ,
      ({ zeroSampleClusterDist with
          has_original := true, original_param_map := [0],
          original := .clusterKind [0] [], n_clusters := 0,
          dist := none, finalized := true } : ClusterDist).compute_probability_map
        ≠ .ok pm) := by
  constructor
  · rfl
  · intro pm hpm
    simp [ClusterDist.compute_probability_map, zeroSampleClusterDist] at hpm

/-- **C6 amended** — if `add_original` on a cluster-kind distribution finds
zero surviving clusters, `force_permutation` is off and `do_permutation` was
(as after construction) off, then no permutations are spawned, the object is
finalized immediately, and — provided at least one permutation was requested
(`samples ≥ 1`) — the resulting probability map is 1 at every sample; with
`samples = 0` requesting the probability map raises instead of producing an
all-ones map. -/
theorem zero_clusters_skip_permutation (cd : ClusterDist) (stat_map : List ℚ)
    (hk : cd.kind = .cluster) (ho : cd.has_original = false)
    (hf : cd.force_permutation = false) (hd : cd.do_permutation = false)
    (hz : (labelClusters stat_map cd.threshold cd.tail cd.criteria).2 = []) :
    ∃ cd', cd.add_original stat_map = .ok cd' ∧
      cd'.do_permutation = false ∧ cd'.finalized = true ∧
      (1 ≤ cd.samples →
        cd'.compute_probability_map = .ok (List.replicate stat_map.length 1)) ∧
      (cd.samples = 0 → ∀ pm, cd'.compute_probability_map ≠ .ok pm) := by
  have hmaps : cd.addOriginalMaps stat_map
      = (OriginalMaps.clusterKind
          (cleanClusterMap (labelClusters stat_map cd.threshold cd.tail cd.criteria).1 [])
          [], 0) := by
    simp only [ClusterDist.addOriginalMaps, hk, hz, List.length_nil]
  have hcond : ¬ (cd.force_permutation = true ∨
      (cd.samples ≠ 0 ∧ (cd.addOriginalMaps stat_map).2 ≠ 0)) := by
    rw [hf, hmaps]
    simp
  have hstep : cd.add_original stat_map = .ok (ClusterDist.finalize
      { cd with
        has_original := true, original_param_map := stat_map,
        original := (cd.addOriginalMaps stat_map).1,
        n_clusters := (cd.addOriginalMaps stat_map).2, dist := none }) := by
    unfold ClusterDist.add_original
    rw [if_neg (by rw [ho]; exact Bool.false_ne_true), if_neg hcond]
  refine ⟨_, hstep, ?_, ?_, ?_, ?_⟩
  · simpa [ClusterDist.finalize] using hd
  · rfl
  · intro hs
    have hs0 : ¬ cd.samples = 0 := by omega
    simp only [ClusterDist.compute_probability_map, ClusterDist.finalize, hmaps,
      if_neg hs0, Option.getD_none]
    unfold computeProbabilityMapCluster
    rw [if_pos rfl, cleanClusterMap_length, labelClusters_fst_length]
  · intro hs pm hpm
    unfold ClusterDist.compute_probability_map at hpm
    simp only [ClusterDist.finalize] at hpm
    rw [if_pos hs] at hpm
    exact Except.noConfusion hpm

/-- Witness for `zero_clusters_skip_permutation`: the `samples = 1` variant
of the counterexample state, original map `[0]` (threshold 2, no sample
exceeds it). -/
theorem zero_clusters_skip_permutation_witness :
    ({ zeroSampleClusterDist with samples := 1 } : ClusterDist).kind = .cluster ∧
    ∃ cd', ({ zeroSampleClusterDist with samples := 1 } : ClusterDist).add_original [0]
        = .ok cd' ∧
      cd'.do_permutation = false ∧ cd'.finalized = true ∧
      (1 ≤ ({ zeroSampleClusterDist with samples := 1 } : ClusterDist).samples →
        cd'.compute_probability_map = .ok (List.replicate ([0] : List ℚ).length 1)) ∧
      (({ zeroSampleClusterDist with samples := 1 } : ClusterDist).samples = 0 →
        ∀ pm, cd'.compute_probability_map ≠ .ok pm) :=
  ⟨rfl, zero_clusters_skip_permutation { zeroSampleClusterDist with samples := 1 } [0]
    rfl rfl rfl rfl (by decide)⟩

/-- **C10** — lifecycle guards: `add_original` on a distribution that already
holds an original map raises `RuntimeError` (in this functional model the
error carries no successor state, so the stored original is unchanged), and
`__getstate__` raises unless the distribution has been finalized: the
original maps are set exactly once and only finalized distributions
pickle. -/
theorem add_original_once_and_pickle_finalized (cd : ClusterDist) (stat_map : List ℚ) :
    (cd.has_original = true →
      cd.add_original stat_map = .error "Original pmap already added") ∧
    (cd.finalized = false →
      cd.getstate
        = .error "Cannot pickle cluster distribution before all permutations have been added.") := by
  constructor
  · intro h
    unfold ClusterDist.add_original
    rw [if_pos h]
  · intro h
    unfold ClusterDist.getstate
    rw [if_pos h]

/-- Witness for `add_original_once_and_pickle_finalized`: a state that
already holds an original map and is not finalized. -/
theorem add_original_once_witness :
    ({ zeroSampleClusterDist with has_original := true } : ClusterDist).has_original = true ∧
    ({ zeroSampleClusterDist with has_original := true } : ClusterDist).add_original [0]
      = .error "Original pmap already added" ∧
    ({ zeroSampleClusterDist with has_original := true } : ClusterDist).getstate
      = .error "Cannot pickle cluster distribution before all permutations have been added." :=
  ⟨rfl,
    (add_original_once_and_pickle_finalized
      { zeroSampleClusterDist with has_original := true } [0]).1 rfl,
    (add_original_once_and_pickle_finalized
      { zeroSampleClusterDist with has_original := true } [0]).2 rfl⟩

end Eelbrain
